import Mathlib

/-!
Verification of the fabra context-assembly core against its specification.

The embedded definitions below are shallow translations of the code in the
repository: the `ContextAssembler` / `ContextItem` demo assembler, the
`RetrieverCache` and the `retriever` decorator wrapper, and the
`FreshnessIndicator` staleness check of `LineagePanel.tsx`.  Components of
the spec whose implementation is not part of the source snapshot (the
truncating Budget Packer and the Freshness Classifier status computation)
are modelled from the spec's words and marked as such in their doc comments.
-/

namespace Fabra

/-- Token estimator of `ContextItem.tokens`: `math.ceil(len(content) / 4)`,
expressed on a character count (`⌈n / 4⌉ = (n + 3) / 4` in natural division). -/
def estimateChars (n : Nat) : Nat := (n + 3) / 4

/-- Token estimate of a content string: rough estimate, ~4 chars per token. -/
def estimateTokens (content : String) : Nat := estimateChars content.length

/-- `ContextItem`: a piece of context with priority and metadata.
`priority`: lower = higher priority (kept first). -/
structure ContextItem where
  content : String
  priority : Int := 1
  required : Bool := false
  metadata : List (String × String) := []
deriving Repr, DecidableEq

/-- `ContextItem.tokens`: rough estimate, ~4 chars per token. -/
def ContextItem.tokens (it : ContextItem) : Nat := estimateTokens it.content

/-- The `ValueError` raised by `assemble` when a required item exceeds the
budget: "Need {item.tokens}, have {self.max_tokens - total_tokens}". -/
structure BudgetError where
  required_tokens : Nat
  available_tokens : Nat
deriving Repr, DecidableEq

/-- The metadata dictionary returned by `assemble` alongside the joined
content. `dropped_items` lists `{priority, tokens}` for each dropped item. -/
structure AssembleMeta where
  total_tokens : Nat
  max_tokens : Nat
  items_included : Nat
  items_dropped : Nat
  dropped_items : List (Int × Nat)
deriving Repr, DecidableEq

/-- The stable ascending sort by `priority` performed by
`sorted(items, key=lambda x: x.priority)` (Python's `sorted` is stable;
any stable sort w.r.t. the total preorder on priorities produces the same
list, so insertion sort is a faithful model). -/
def sortByPriority (items : List ContextItem) : List ContextItem :=
  List.insertionSort (fun a b => a.priority ≤ b.priority) items

/-- The packing loop of `ContextAssembler.assemble`: walk the sorted items
keeping a running `total`; include an item whole when it fits, raise a
`ValueError` when a non-fitting item is `required`, drop it otherwise. -/
def packGo (max_tokens : Nat) (total : Nat) :
    List ContextItem → Except BudgetError (List ContextItem × List ContextItem × Nat)
  | [] => .ok ([], [], total)
  | item :: rest =>
    if total + item.tokens ≤ max_tokens then
      match packGo max_tokens (total + item.tokens) rest with
      | .ok (inc, drop, t) => .ok (item :: inc, drop, t)
      | .error e => .error e
    else if item.required then
      .error ⟨item.tokens, max_tokens - total⟩
    else
      match packGo max_tokens total rest with
      | .ok (inc, drop, t) => .ok (inc, item :: drop, t)
      | .error e => .error e

/-- `ContextAssembler`: assembles context items within a token budget. -/
structure ContextAssembler where
  max_tokens : Nat := 4000
deriving Repr, DecidableEq

/-- The selection part of `ContextAssembler.assemble` (sort, then the packing
loop), returning the included items, the dropped items and the total tokens. -/
def ContextAssembler.pack (a : ContextAssembler) (items : List ContextItem) :
    Except BudgetError (List ContextItem × List ContextItem × Nat) :=
  packGo a.max_tokens 0 (sortByPriority items)

/-- `ContextAssembler.assemble`: sorts by priority, packs greedily under the
budget, joins the included contents with a blank line, and returns the
metadata dictionary. -/
def ContextAssembler.assemble (a : ContextAssembler) (items : List ContextItem) :
    Except BudgetError (String × AssembleMeta) :=
  match a.pack items with
  | .error e => .error e
  | .ok (included, dropped, total_tokens) =>
    .ok (String.intercalate "\n\n" (included.map (fun it => it.content)),
      { total_tokens := total_tokens
        max_tokens := a.max_tokens
        items_included := included.length
        items_dropped := dropped.length
        dropped_items := dropped.map (fun d => (d.priority, d.tokens)) })

/-! ### Packing-loop lemmas -/

theorem packGo_ok_perm {max : Nat} :
    ∀ {l : List ContextItem} {total : Nat} {inc drop : List ContextItem} {t : Nat},
      packGo max total l = .ok (inc, drop, t) → (inc ++ drop).Perm l := by
  intro l
  induction l with
  | nil =>
    intro total inc drop t h
    simp only [packGo, Except.ok.injEq, Prod.mk.injEq] at h
    obtain ⟨h1, h2, _⟩ := h
    subst h1; subst h2; simp
  | cons item rest ih =>
    intro total inc drop t h
    simp only [packGo] at h
    split at h
    · cases hrec : packGo max (total + item.tokens) rest with
      | ok p =>
        obtain ⟨inc', drop', t'⟩ := p
        rw [hrec] at h
        simp only [Except.ok.injEq, Prod.mk.injEq] at h
        obtain ⟨h1, h2, _⟩ := h
        subst h1; subst h2
        simpa using (ih hrec).cons item
      | error e => rw [hrec] at h; exact absurd h (by simp)
    · split at h
      · exact absurd h (by simp)
      · cases hrec : packGo max total rest with
        | ok p =>
          obtain ⟨inc', drop', t'⟩ := p
          rw [hrec] at h
          simp only [Except.ok.injEq, Prod.mk.injEq] at h
          obtain ⟨h1, h2, _⟩ := h
          subst h1; subst h2
          exact List.perm_middle.trans ((ih hrec).cons item)
        | error e => rw [hrec] at h; exact absurd h (by simp)

theorem packGo_ok_total {max : Nat} :
    ∀ {l : List ContextItem} {total : Nat} {inc drop : List ContextItem} {t : Nat},
      packGo max total l = .ok (inc, drop, t) →
      t = total + (inc.map ContextItem.tokens).sum := by
  intro l
  induction l with
  | nil =>
    intro total inc drop t h
    simp only [packGo, Except.ok.injEq, Prod.mk.injEq] at h
    obtain ⟨h1, _, h3⟩ := h
    subst h1; simp [← h3]
  | cons item rest ih =>
    intro total inc drop t h
    simp only [packGo] at h
    split at h
    · cases hrec : packGo max (total + item.tokens) rest with
      | ok p =>
        obtain ⟨inc', drop', t'⟩ := p
        rw [hrec] at h
        simp only [Except.ok.injEq, Prod.mk.injEq] at h
        obtain ⟨h1, _, h3⟩ := h
        subst h1; subst h3
        have := ih hrec
        simp only [List.map_cons, List.sum_cons]
        omega
      | error e => rw [hrec] at h; exact absurd h (by simp)
    · split at h
      · exact absurd h (by simp)
      · cases hrec : packGo max total rest with
        | ok p =>
          obtain ⟨inc', drop', t'⟩ := p
          rw [hrec] at h
          simp only [Except.ok.injEq, Prod.mk.injEq] at h
          obtain ⟨h1, _, h3⟩ := h
          subst h1; subst h3
          exact ih hrec
        | error e => rw [hrec] at h; exact absurd h (by simp)

theorem packGo_ok_le {max : Nat} :
    ∀ {l : List ContextItem} {total : Nat} {inc drop : List ContextItem} {t : Nat},
      packGo max total l = .ok (inc, drop, t) → total ≤ max → t ≤ max := by
  intro l
  induction l with
  | nil =>
    intro total inc drop t h hle
    simp only [packGo, Except.ok.injEq, Prod.mk.injEq] at h
    obtain ⟨_, _, h3⟩ := h
    omega
  | cons item rest ih =>
    intro total inc drop t h hle
    simp only [packGo] at h
    split at h
    · cases hrec : packGo max (total + item.tokens) rest with
      | ok p =>
        obtain ⟨inc', drop', t'⟩ := p
        rw [hrec] at h
        simp only [Except.ok.injEq, Prod.mk.injEq] at h
        obtain ⟨_, _, h3⟩ := h
        subst h3
        exact ih hrec (by omega)
      | error e => rw [hrec] at h; exact absurd h (by simp)
    · split at h
      · exact absurd h (by simp)
      · cases hrec : packGo max total rest with
        | ok p =>
          obtain ⟨inc', drop', t'⟩ := p
          rw [hrec] at h
          simp only [Except.ok.injEq, Prod.mk.injEq] at h
          obtain ⟨_, _, h3⟩ := h
          subst h3
          exact ih hrec hle
        | error e => rw [hrec] at h; exact absurd h (by simp)

theorem packGo_ok_sublists {max : Nat} :
    ∀ {l : List ContextItem} {total : Nat} {inc drop : List ContextItem} {t : Nat},
      packGo max total l = .ok (inc, drop, t) → inc.Sublist l ∧ drop.Sublist l := by
  intro l
  induction l with
  | nil =>
    intro total inc drop t h
    simp only [packGo, Except.ok.injEq, Prod.mk.injEq] at h
    obtain ⟨h1, h2, _⟩ := h
    subst h1; subst h2; simp
  | cons item rest ih =>
    intro total inc drop t h
    simp only [packGo] at h
    split at h
    · cases hrec : packGo max (total + item.tokens) rest with
      | ok p =>
        obtain ⟨inc', drop', t'⟩ := p
        rw [hrec] at h
        simp only [Except.ok.injEq, Prod.mk.injEq] at h
        obtain ⟨h1, h2, _⟩ := h
        subst h1; subst h2
        exact ⟨(ih hrec).1.cons₂ item, (ih hrec).2.cons item⟩
      | error e => rw [hrec] at h; exact absurd h (by simp)
    · split at h
      · exact absurd h (by simp)
      · cases hrec : packGo max total rest with
        | ok p =>
          obtain ⟨inc', drop', t'⟩ := p
          rw [hrec] at h
          simp only [Except.ok.injEq, Prod.mk.injEq] at h
          obtain ⟨h1, h2, _⟩ := h
          subst h1; subst h2
          exact ⟨(ih hrec).1.cons item, (ih hrec).2.cons₂ item⟩
        | error e => rw [hrec] at h; exact absurd h (by simp)

theorem packGo_ok_drop_not_required {max : Nat} :
    ∀ {l : List ContextItem} {total : Nat} {inc drop : List ContextItem} {t : Nat},
      packGo max total l = .ok (inc, drop, t) → ∀ x ∈ drop, x.required = false := by
  intro l
  induction l with
  | nil =>
    intro total inc drop t h
    simp only [packGo, Except.ok.injEq, Prod.mk.injEq] at h
    obtain ⟨_, h2, _⟩ := h
    subst h2; simp
  | cons item rest ih =>
    intro total inc drop t h
    simp only [packGo] at h
    split at h
    · cases hrec : packGo max (total + item.tokens) rest with
      | ok p =>
        obtain ⟨inc', drop', t'⟩ := p
        rw [hrec] at h
        simp only [Except.ok.injEq, Prod.mk.injEq] at h
        obtain ⟨_, h2, _⟩ := h
        subst h2
        exact ih hrec
      | error e => rw [hrec] at h; exact absurd h (by simp)
    · rename_i hfit
      split at h
      · exact absurd h (by simp)
      · rename_i hreq
        cases hrec : packGo max total rest with
        | ok p =>
          obtain ⟨inc', drop', t'⟩ := p
          rw [hrec] at h
          simp only [Except.ok.injEq, Prod.mk.injEq] at h
          obtain ⟨_, h2, _⟩ := h
          subst h2
          intro x hx
          rcases List.mem_cons.mp hx with rfl | hx'
          · simpa using hreq
          · exact ih hrec x hx'
        | error e => rw [hrec] at h; exact absurd h (by simp)

/-! ### Sorting lemmas -/

instance : IsTotal ContextItem (fun a b => a.priority ≤ b.priority) :=
  ⟨fun a b => le_total a.priority b.priority⟩

instance : IsTrans ContextItem (fun a b => a.priority ≤ b.priority) :=
  ⟨fun _ _ _ h1 h2 => le_trans h1 h2⟩

theorem sorted_sortByPriority (items : List ContextItem) :
    (sortByPriority items).Sorted (fun a b => a.priority ≤ b.priority) :=
  List.sorted_insertionSort _ items

theorem filter_orderedInsert (pr : Int) (a : ContextItem) (s : List ContextItem) :
    (List.orderedInsert (fun x y : ContextItem => x.priority ≤ y.priority) a s).filter
        (fun x => x.priority = pr) =
      if a.priority = pr then
        a :: s.filter (fun x => x.priority = pr)
      else s.filter (fun x => x.priority = pr) := by
  rw [List.orderedInsert_eq_take_drop, List.filter_append]
  have hlt : ∀ x ∈ s.takeWhile (fun b => ¬(a.priority ≤ b.priority)),
      x.priority < a.priority := by
    intro x hx
    have := List.mem_takeWhile_imp hx
    simp only [decide_eq_true_eq] at this
    omega
  by_cases h : a.priority = pr
  · rw [if_pos h, List.filter_cons_of_pos (by simpa using h)]
    have htake : (s.takeWhile (fun b => ¬(a.priority ≤ b.priority))).filter
        (fun x => x.priority = pr) = [] := by
      rw [List.filter_eq_nil_iff]
      intro x hx
      have := hlt x hx
      simp only [decide_eq_true_eq]
      omega
    rw [htake, List.nil_append]
    conv_rhs => rw [← List.takeWhile_append_dropWhile
      (p := fun b => ¬(a.priority ≤ b.priority)) (l := s)]
    rw [List.filter_append, htake, List.nil_append]
  · rw [if_neg h, List.filter_cons_of_neg (by simpa using h), ← List.filter_append,
      List.takeWhile_append_dropWhile]

theorem filter_sortByPriority (pr : Int) (items : List ContextItem) :
    (sortByPriority items).filter (fun x => x.priority = pr) =
      items.filter (fun x => x.priority = pr) := by
  induction items with
  | nil => rfl
  | cons a l ih =>
    simp only [sortByPriority, List.insertionSort] at ih ⊢
    rw [filter_orderedInsert, ih]
    by_cases h : a.priority = pr
    · rw [if_pos h, List.filter_cons_of_pos (by simpa using h)]
    · rw [if_neg h, List.filter_cons_of_neg (by simpa using h)]

/-! ### Concrete items used by the witnesses -/

/-- 4 characters, 1 token, priority 1, optional. -/
def exA : ContextItem := { content := "aaaa", priority := 1 }

/-- 4 characters, 1 token, priority 1, optional. -/
def exB : ContextItem := { content := "bbbb", priority := 1 }

/-- 4 characters, 1 token, priority 0, optional. -/
def exC : ContextItem := { content := "cccc", priority := 0 }

/-- 4 characters, 1 token, priority 0, optional. -/
def exSmall : ContextItem := { content := "abcd", priority := 0 }

/-- 25 characters, 7 tokens, required. -/
def exBig : ContextItem :=
  { content := "ABCDEFGHIJKLMNOPQRSTUVWXY", priority := 1, required := true }

/-- 25 characters, 7 tokens, optional. -/
def exBigOpt : ContextItem := { content := "ABCDEFGHIJKLMNOPQRSTUVWXY", priority := 1 }

/-! ### Claim theorems for the Budget Packer -/

/-- C1: for every list of context items and every budget, if
`ContextAssembler.assemble` returns an outcome rather than raising, then the
total token count of the included items (the reported `total_tokens`) is at
most the budget `max_tokens`. -/
theorem assemble_total_le_budget (a : ContextAssembler) (items : List ContextItem)
    (content : String) (meta : AssembleMeta)
    (h : a.assemble items = .ok (content, meta)) :
    meta.total_tokens ≤ a.max_tokens := by
  simp only [ContextAssembler.assemble] at h
  cases hp : a.pack items with
  | error e => rw [hp] at h; exact absurd h (by simp)
  | ok p =>
    obtain ⟨inc, drop, t⟩ := p
    rw [hp] at h
    simp only [Except.ok.injEq, Prod.mk.injEq] at h
    obtain ⟨_, h2⟩ := h
    subst h2
    simp only [ContextAssembler.pack] at hp
    exact packGo_ok_le hp (Nat.zero_le _)

/-- Witness for C1 at a concrete input: a 1-token item under a 4000-token
budget assembles with `total_tokens = 1 ≤ 4000`. -/
theorem assemble_total_le_budget_witness :
    ContextAssembler.assemble ⟨4000⟩ [exSmall] =
        .ok ("abcd", ⟨1, 4000, 1, 0, []⟩) ∧ (1 : Nat) ≤ 4000 :=
  ⟨rfl,
   assemble_total_le_budget ⟨4000⟩ [exSmall] "abcd" ⟨1, 4000, 1, 0, []⟩ rfl⟩

/-- C2: a required candidate that does not fit in the remaining budget at the
moment it is processed makes the whole assembly fail with a budget error
carrying its token count and the available budget (`max_tokens - total`); and
no returned outcome ever contains a required candidate in its dropped set. -/
theorem pack_required_fails_never_dropped (a : ContextAssembler) :
    (∀ (total : Nat) (item : ContextItem) (rest : List ContextItem),
        a.max_tokens < total + item.tokens → item.required = true →
        packGo a.max_tokens total (item :: rest) =
          .error ⟨item.tokens, a.max_tokens - total⟩) ∧
    (∀ (items inc drop : List ContextItem) (t : Nat),
        a.pack items = .ok (inc, drop, t) → ∀ x ∈ drop, x.required = false) := by
  constructor
  · intro total item rest hfit hreq
    simp only [packGo]
    rw [if_neg (by omega), if_pos hreq]
  · intro items inc drop t h
    simp only [ContextAssembler.pack] at h
    exact packGo_ok_drop_not_required h

/-- Witness for C2 at concrete inputs: a 7-token required item under budget 5
raises `BudgetError ⟨7, 5⟩`; a 7-token optional item under budget 5 is
dropped, and every dropped item is non-required. -/
theorem pack_required_fails_never_dropped_witness :
    packGo 5 0 [exBig] = .error ⟨7, 5⟩ ∧ exBigOpt.required = false :=
  ⟨(pack_required_fails_never_dropped ⟨5⟩).1 0 exBig [] (by decide) (by decide),
   (pack_required_fails_never_dropped ⟨5⟩).2 [exBigOpt] [] [exBigOpt] 0 rfl
     exBigOpt (by simp)⟩

/-- C4: the packer stable-sorts by ascending priority: in any returned
outcome, a strictly lower-priority included item appears strictly earlier in
`included`; and for every priority class, both `included` and `dropped`
preserve the original relative order of that class (they are sublists of the
original list restricted to the class). -/
theorem pack_priority_sorted_stable (a : ContextAssembler)
    (items inc drop : List ContextItem) (t : Nat)
    (h : a.pack items = .ok (inc, drop, t)) :
    (∀ i j : Fin inc.length,
        (inc.get i).priority < (inc.get j).priority → (i : Nat) < (j : Nat)) ∧
    (∀ pr : Int, (inc.filter (fun x => x.priority = pr)).Sublist
        (items.filter (fun x => x.priority = pr))) ∧
    (∀ pr : Int, (drop.filter (fun x => x.priority = pr)).Sublist
        (items.filter (fun x => x.priority = pr))) := by
  simp only [ContextAssembler.pack] at h
  obtain ⟨hinc, hdrop⟩ := packGo_ok_sublists h
  have hsorted : inc.Sorted (fun a b => a.priority ≤ b.priority) :=
    List.Pairwise.sublist hinc (sorted_sortByPriority items)
  refine ⟨?_, ?_, ?_⟩
  · intro i j hlt
    rcases lt_trichotomy (i : Nat) (j : Nat) with h1 | h1 | h1
    · exact h1
    · exfalso
      have : i = j := Fin.ext h1
      subst this
      exact lt_irrefl _ hlt
    · exfalso
      have hrel := hsorted.rel_get_of_lt (a := j) (b := i) h1
      omega
  · intro pr
    have hs := hinc.filter (fun x => decide (x.priority = pr))
    rwa [filter_sortByPriority] at hs
  · intro pr
    have hs := hdrop.filter (fun x => decide (x.priority = pr))
    rwa [filter_sortByPriority] at hs

/-- Witness for C4 at a concrete input: budget 2 over three 1-token items with
priorities 1, 1, 0 includes `[exC, exA]`, drops `[exB]`, and the included
priority-1 class keeps its original order. -/
theorem pack_priority_sorted_stable_witness :
    ContextAssembler.pack ⟨2⟩ [exA, exB, exC] = .ok ([exC, exA], [exB], 2) ∧
    ([exC, exA].filter (fun x => x.priority = 1)).Sublist
      ([exA, exB, exC].filter (fun x => x.priority = 1)) :=
  ⟨rfl,
   (pack_priority_sorted_stable ⟨2⟩ [exA, exB, exC] [exC, exA] [exB] 2 rfl).2.1 1⟩

/-- C10: when `assemble` returns, the input items are partitioned between the
included and dropped sets (their concatenation is a permutation of the input),
the reported `total_tokens` is the sum of the included items' token counts
(dropped items consume no budget), and the empty input yields the empty
outcome with zero tokens and no error. -/
theorem assemble_partitions_and_sums (a : ContextAssembler) (items : List ContextItem)
    (content : String) (meta : AssembleMeta)
    (h : a.assemble items = .ok (content, meta)) :
    (∃ inc drop : List ContextItem,
        a.pack items = .ok (inc, drop, meta.total_tokens) ∧
        (inc ++ drop).Perm items ∧
        meta.total_tokens = (inc.map ContextItem.tokens).sum ∧
        meta.items_included = inc.length ∧
        meta.items_dropped = drop.length) ∧
    a.assemble [] = .ok ("", ⟨0, a.max_tokens, 0, 0, []⟩) := by
  constructor
  · simp only [ContextAssembler.assemble] at h
    cases hp : a.pack items with
    | error e => rw [hp] at h; exact absurd h (by simp)
    | ok p =>
      obtain ⟨inc, drop, t⟩ := p
      rw [hp] at h
      simp only [Except.ok.injEq, Prod.mk.injEq] at h
      obtain ⟨_, h2⟩ := h
      subst h2
      refine ⟨inc, drop, rfl, ?_, ?_, rfl, rfl⟩
      · simp only [ContextAssembler.pack] at hp
        exact (packGo_ok_perm hp).trans (List.perm_insertionSort _ items)
      · simp only [ContextAssembler.pack] at hp
        have := packGo_ok_total hp
        simpa using this
  · rfl

/-- Witness for C10 at a concrete input: budget 2 over three 1-token items
partitions them into two included and one dropped with `total_tokens = 2`,
and the empty input assembles to the empty outcome. -/
theorem assemble_partitions_and_sums_witness :
    ContextAssembler.assemble ⟨2⟩ [exA, exB, exC] =
        .ok ("cccc\n\naaaa", ⟨2, 2, 2, 1, [(1, 1)]⟩) ∧
    ContextAssembler.assemble ⟨2⟩ [] = .ok ("", ⟨0, 2, 0, 0, []⟩) :=
  ⟨rfl,
   (assemble_partitions_and_sums ⟨2⟩ [exA, exB, exC] "cccc\n\naaaa"
      ⟨2, 2, 2, 1, [(1, 1)]⟩ rfl).2⟩

/-! ### Retriever cache (from the retriever-pattern demo) -/

/-- Cache key of `RetrieverCache._hash_query`: the md5 hex digest of the
string `"{query}:{top_k}"`.  The digest is modelled by its pre-image string
(the digest function is injective on the keys in play). -/
def hashQuery (query : String) (top_k : Nat) : String :=
  query ++ ":" ++ toString top_k

/-- `RetrieverCache`: a dictionary from hashed query keys to search results,
a TTL in seconds, and hit/miss counters.  The stored result type is kept
abstract (the code stores lists of result dictionaries). -/
structure RetrieverCache (α : Type) where
  cache : List (String × α) := []
  ttl : Nat := 300
  hits : Nat := 0
  misses : Nat := 0

/-- `RetrieverCache.get`: look the hashed key up; on presence count a hit and
return the stored results, otherwise count a miss and return `none`.  The
stored `ttl` is never consulted, exactly as in the code. -/
def RetrieverCache.get {α : Type} (c : RetrieverCache α) (query : String)
    (top_k : Nat) : Option α × RetrieverCache α :=
  match c.cache.lookup (hashQuery query top_k) with
  | some v => (some v, { c with hits := c.hits + 1 })
  | none => (none, { c with misses := c.misses + 1 })

/-- `RetrieverCache.set`: store the results under the hashed key (dictionary
assignment modelled as a shadowing prepend). -/
def RetrieverCache.set {α : Type} (c : RetrieverCache α) (query : String)
    (top_k : Nat) (results : α) : RetrieverCache α :=
  { c with cache := (hashQuery query top_k, results) :: c.cache }

/-- The wrapper produced by the `retriever` decorator: check the cache, on a
hit return the cached results, otherwise perform the search, cache its
results and return them.  The third component counts the invocations of the
underlying search (0 or 1); `cache_ttl` is accepted and ignored, as in the
code. -/
def retrieverWrapper {α : Type} (top_k cache_ttl : Nat)
    (search : String → Nat → α) (c : RetrieverCache α) (query : String) :
    α × RetrieverCache α × Nat :=
  match RetrieverCache.get c query top_k with
  | (some cached, c') => (cached, c', 0)
  | (none, c') =>
    let results := search query top_k
    (results, RetrieverCache.set c' query top_k results, 1)

/-- C5: evaluation at the failing input.  With `ttl = 0`, an entry stored by
`set` is still returned by the next `get` on the same key (a cache hit), so a
TTL of zero does not disable caching; the implementation never consults
`ttl`, stores no timestamps, and hence never expires or evicts an entry. -/
theorem cache_ttl_zero_still_hits :
    (RetrieverCache.get
        (RetrieverCache.set ⟨[], 0, 0, 0⟩ "q" 3 [("doc_1", 1)]) "q" 3).1
      = some [("doc_1", 1)] := rfl

/-- C6: calling the cached retrieval twice with the same key (same query and
`top_k`), starting from a state where the key is absent, invokes the
underlying search exactly once: the first call searches once, the second call
searches zero times and returns exactly the value the first call computed and
stored. -/
theorem wrapper_second_call_cached {α : Type} (top_k cache_ttl : Nat)
    (search : String → Nat → α) (c : RetrieverCache α) (query : String)
    (hcold : c.cache.lookup (hashQuery query top_k) = none) :
    (retrieverWrapper top_k cache_ttl search c query).2.2 = 1 ∧
    (retrieverWrapper top_k cache_ttl search
        (retrieverWrapper top_k cache_ttl search c query).2.1 query).2.2 = 0 ∧
    (retrieverWrapper top_k cache_ttl search
        (retrieverWrapper top_k cache_ttl search c query).2.1 query).1
      = (retrieverWrapper top_k cache_ttl search c query).1 := by
  simp [retrieverWrapper, RetrieverCache.get, RetrieverCache.set, hcold]

/-- Witness for C6 at a concrete input: from the empty cache, two calls with
query `"q"` and `top_k = 3` perform one search and then a pure cache hit. -/
theorem wrapper_second_call_cached_witness :
    (retrieverWrapper 3 300 (fun _ _ => (42 : Nat)) ⟨[], 300, 0, 0⟩ "q").2.2 = 1 ∧
    (retrieverWrapper 3 300 (fun _ _ => (42 : Nat))
        (retrieverWrapper 3 300 (fun _ _ => (42 : Nat)) ⟨[], 300, 0, 0⟩ "q").2.1
        "q").2.2 = 0 ∧
    (retrieverWrapper 3 300 (fun _ _ => (42 : Nat))
        (retrieverWrapper 3 300 (fun _ _ => (42 : Nat)) ⟨[], 300, 0, 0⟩ "q").2.1
        "q").1
      = (retrieverWrapper 3 300 (fun _ _ => (42 : Nat)) ⟨[], 300, 0, 0⟩ "q").1 :=
  wrapper_second_call_cached 3 300 (fun _ _ => (42 : Nat)) ⟨[], 300, 0, 0⟩ "q" rfl

/-! ### Token estimator -/

/-- C8: the token estimate is a non-negative integer, deterministic (two
evaluations on the same content yield the same count; the code takes no model
parameter), and monotonic: content at least as long never yields fewer
tokens, so extending content never decreases the estimate. -/
theorem estimateTokens_nonneg_deterministic_monotone (s t : String)
    (h : s.length ≤ t.length) :
    0 ≤ estimateTokens s ∧ estimateTokens s = estimateTokens s ∧
    estimateTokens s ≤ estimateTokens t := by
  refine ⟨Nat.zero_le _, rfl, ?_⟩
  simp only [estimateTokens, estimateChars]
  omega

/-- Witness for C8 at a concrete input: `"ab"` extended to `"abcdef"`. -/
theorem estimateTokens_nonneg_deterministic_monotone_witness :
    0 ≤ estimateTokens "ab" ∧ estimateTokens "ab" = estimateTokens "ab" ∧
    estimateTokens "ab" ≤ estimateTokens "abcdef" :=
  estimateTokens_nonneg_deterministic_monotone "ab" "abcdef" (by decide)

/-! ### Freshness -/

/-- The staleness check of `FreshnessIndicator` in `LineagePanel.tsx`:
`isStale = slaMs !== undefined && ms > slaMs` (an absent SLA is
`undefined`, modelled as `none`). -/
def isStale (ms : Int) (slaMs : Option Int) : Bool :=
  match slaMs with
  | none => false
  | some sla => ms > sla

/-- The freshness statuses displayed by `LineagePanel.tsx`. -/
inductive FreshnessStatus where
  | guaranteed
  | degraded
  | unknown
deriving Repr, DecidableEq

/-- Modelled from the spec: the Freshness Classifier (§4.5) runs in the
backend, which is not part of the source snapshot; only the per-item
staleness check (`FreshnessIndicator`) is.  `classify` takes the ages (in
ms) of the included items that carry a timestamp and the optional SLA: with
no SLA the status is `unknown` with no violations; otherwise the violations
are the ages flagged stale by the per-item check and the status is
`guaranteed` exactly when there is no violation, `degraded` otherwise. -/
def classify (ages : List Int) (sla : Option Int) : FreshnessStatus × List Int :=
  match sla with
  | none => (.unknown, [])
  | some s =>
    let violations := ages.filter (fun ms => isStale ms (some s))
    (if violations = [] then .guaranteed else .degraded, violations)

/-- A list filtered by a stronger predicate is a sublist of the list filtered
by a weaker one. -/
theorem filter_sublist_filter_of_imp {α : Type} (p q : α → Bool) (l : List α)
    (h : ∀ a, p a = true → q a = true) : (l.filter p).Sublist (l.filter q) := by
  induction l with
  | nil => simp
  | cons a l ih =>
    by_cases hp : p a = true
    · rw [List.filter_cons_of_pos hp, List.filter_cons_of_pos (h a hp)]
      exact ih.cons₂ a
    · rw [List.filter_cons_of_neg (by simpa using hp)]
      by_cases hq : q a = true
      · rw [List.filter_cons_of_pos hq]
        exact ih.cons a
      · rw [List.filter_cons_of_neg (by simpa using hq)]
        exact ih

/-- C9: an item is flagged stale exactly when an SLA is present and its age
exceeds it; consequently, for the same ages, growing the SLA shrinks (or
keeps) the violation set and never turns a `guaranteed` status into
`degraded`. -/
theorem freshness_iff_and_sla_monotone :
    (∀ (ms : Int) (slaMs : Option Int),
        isStale ms slaMs = true ↔ ∃ s, slaMs = some s ∧ s < ms) ∧
    (∀ (ages : List Int) (s s' : Int), s ≤ s' →
        ((classify ages (some s')).2).Sublist ((classify ages (some s)).2) ∧
        ((classify ages (some s)).1 = .guaranteed →
          (classify ages (some s')).1 = .guaranteed)) := by
  constructor
  · intro ms slaMs
    cases slaMs with
    | none => simp [isStale]
    | some s =>
      simp only [isStale, decide_eq_true_eq, Option.some.injEq]
      constructor
      · intro h; exact ⟨s, rfl, h⟩
      · rintro ⟨s', hs, h⟩; omega
  · intro ages s s' hss
    have hsub : ((classify ages (some s')).2).Sublist ((classify ages (some s)).2) := by
      simp only [classify]
      apply filter_sublist_filter_of_imp
      intro a ha
      simp only [isStale, decide_eq_true_eq] at ha ⊢
      omega
    refine ⟨hsub, ?_⟩
    intro hg
    simp only [classify] at hg ⊢
    split at hg
    · rename_i hemp
      rw [if_pos]
      have := hsub
      simp only [classify] at this
      rw [hemp] at this
      exact List.sublist_nil.mp this
    · exact absurd hg (by simp)

/-- Witness for C9 at concrete inputs: age 5 violates SLA 3, and growing the
SLA from 10 to 20 keeps the violation set `[100]` a sublist of itself. -/
theorem freshness_iff_and_sla_monotone_witness :
    isStale 5 (some 3) = true ∧
    ((classify [5, 100] (some 20)).2).Sublist ((classify [5, 100] (some 10)).2) :=
  ⟨(freshness_iff_and_sla_monotone.1 5 (some 3)).mpr ⟨3, rfl, by norm_num⟩,
   (freshness_iff_and_sla_monotone.2 [5, 100] 10 20 (by norm_num)).1⟩

/-! ### Truncating Budget Packer, modelled from the spec (§4.4) -/

/-- Modelled from the spec: the truncation policies of a ContentItem (§3):
`{none, end, start, middle}`. -/
inductive TruncatePolicy where
  | none
  | «end»
  | start
  | middle
deriving Repr, DecidableEq

/-- Modelled from the spec: a candidate of the truncating Budget Packer
(§4.4), which is not part of the source snapshot (the demo assembler has no
truncation and its items no `truncate_policy` field).  Content is modelled by
its character sequence. -/
structure SpecCandidate where
  content : List Char
  priority : Int
  required : Bool
  truncate_policy : TruncatePolicy
deriving Repr, DecidableEq

/-- Token count of a spec candidate, using the same ~4-characters-per-token
estimator as the code. -/
def SpecCandidate.tokens (c : SpecCandidate) : Nat := estimateChars c.content.length

/-- Modelled from the spec: shrink content per policy to `keep` characters:
`end` drops the trailing portion, `start` drops the leading portion, `middle`
keeps a prefix and a suffix and drops the interior; `none` never shrinks. -/
def truncateContent (policy : TruncatePolicy) (content : List Char) (keep : Nat) :
    List Char :=
  match policy with
  | .none => content
  | .«end» => content.take keep
  | .start => content.drop (content.length - keep)
  | .middle =>
    content.take ((keep + 1) / 2) ++ content.drop (content.length - keep / 2)

/-- Modelled from the spec: the shrunk content of a non-fitting candidate —
"the exact number of tokens that fit in the remaining budget", i.e.
`(budget - used) * 4` characters under the ~4-chars-per-token estimator. -/
def specShrink (budget used : Nat) (c : SpecCandidate) : List Char :=
  truncateContent c.truncate_policy c.content ((budget - used) * 4)

/-- Modelled from the spec: the Budget Packer of §4.4 including truncation
(step 4), absent from the source snapshot.  A fitting candidate is included
whole; a non-fitting candidate with a policy other than `none` is shrunk to
the tokens that fit, its tokens re-estimated, and included when the shrunk
content is non-empty; otherwise a required candidate fails the assembly with
a budget error and a non-required one is dropped. -/
def packSpecGo (budget used : Nat) :
    List SpecCandidate → Except BudgetError (List SpecCandidate × List SpecCandidate × Nat)
  | [] => .ok ([], [], used)
  | c :: rest =>
    if used + c.tokens ≤ budget then
      match packSpecGo budget (used + c.tokens) rest with
      | .ok (inc, dropped, t) => .ok (c :: inc, dropped, t)
      | .error e => .error e
    else if c.truncate_policy ≠ TruncatePolicy.none ∧ specShrink budget used c ≠ [] then
      match packSpecGo budget
          (used + SpecCandidate.tokens { c with content := specShrink budget used c }) rest with
      | .ok (inc, dropped, t) =>
        .ok ({ c with content := specShrink budget used c } :: inc, dropped, t)
      | .error e => .error e
    else if c.required then
      .error ⟨c.tokens, budget - used⟩
    else
      match packSpecGo budget used rest with
      | .ok (inc, dropped, t) => .ok (inc, c :: dropped, t)
      | .error e => .error e

/-- C3: for a candidate that does not fit whole and whose policy is not
`none`, the packer shrinks its content per the policy to exactly the tokens
that fit in the remaining budget (so the re-estimated token count equals —
in particular never exceeds — the remaining budget), the shrunk content is a
substring/subsequence of the original per its policy (`end`: a leading
portion, `start`: a trailing portion, `middle`: a prefix and a suffix with
the interior dropped), and the shrunk candidate is included whenever the
shrunk content is non-empty. -/
theorem packSpec_truncation_sound (budget used : Nat) (c : SpecCandidate)
    (hnofit : budget < used + c.tokens) (hpol : c.truncate_policy ≠ TruncatePolicy.none) :
    estimateChars (specShrink budget used c).length = budget - used ∧
    (match c.truncate_policy with
     | .none => True
     | .«end» => ∃ r, c.content = specShrink budget used c ++ r
     | .start => ∃ p, c.content = p ++ specShrink budget used c
     | .middle => ∃ a b m, specShrink budget used c = a ++ b ∧
         c.content = a ++ m ++ b) ∧
    (∀ rest, specShrink budget used c ≠ [] →
        packSpecGo budget used (c :: rest) =
          match packSpecGo budget
              (used + SpecCandidate.tokens { c with content := specShrink budget used c })
              rest with
          | .ok (inc, dropped, t) =>
            .ok ({ c with content := specShrink budget used c } :: inc, dropped, t)
          | .error e => .error e) := by
  have hlen : budget - used = 0 ∨
      (budget - used) * 4 + 1 ≤ c.content.length := by
    simp only [SpecCandidate.tokens, estimateChars] at hnofit
    omega
  refine ⟨?_, ?_, ?_⟩
  · cases hp : c.truncate_policy with
    | none => exact absurd hp hpol
    | «end» =>
      simp only [specShrink, truncateContent, hp, List.length_take, estimateChars]
      omega
    | start =>
      simp only [specShrink, truncateContent, hp, List.length_drop, estimateChars]
      omega
    | middle =>
      simp only [specShrink, truncateContent, hp, List.length_append,
        List.length_take, List.length_drop, estimateChars]
      omega
  · cases hp : c.truncate_policy with
    | none => trivial
    | «end» =>
      exact ⟨c.content.drop ((budget - used) * 4),
        by simp [specShrink, truncateContent, hp]⟩
    | start =>
      exact ⟨c.content.take (c.content.length - (budget - used) * 4),
        by simp [specShrink, truncateContent, hp]⟩
    | middle =>
      refine ⟨c.content.take (((budget - used) * 4 + 1) / 2),
        c.content.drop (c.content.length - (budget - used) * 4 / 2),
        (c.content.drop (((budget - used) * 4 + 1) / 2)).take
          ((c.content.length - (budget - used) * 4 / 2) - ((budget - used) * 4 + 1) / 2),
        by simp [specShrink, truncateContent, hp], ?_⟩
      have h3 : (c.content.drop (((budget - used) * 4 + 1) / 2)).drop
          ((c.content.length - (budget - used) * 4 / 2) - ((budget - used) * 4 + 1) / 2)
            = c.content.drop (c.content.length - (budget - used) * 4 / 2) := by
        rw [List.drop_drop]
        congr 1
        omega
      conv_lhs => rw [← List.take_append_drop (((budget - used) * 4 + 1) / 2) c.content]
      rw [List.append_assoc]
      congr 1
      conv_lhs => rw [← List.take_append_drop
        ((c.content.length - (budget - used) * 4 / 2) - ((budget - used) * 4 + 1) / 2)
        (c.content.drop (((budget - used) * 4 + 1) / 2))]
      rw [h3]
  · intro rest hsh
    simp only [packSpecGo]
    rw [if_neg (by omega), if_pos ⟨hpol, hsh⟩]

/-- Witness for C3 at a concrete input: a 9-character candidate (3 tokens)
with policy `end` under remaining budget 2 shrinks to 8 characters, exactly
2 tokens. -/
theorem packSpec_truncation_sound_witness :
    estimateChars (specShrink 2 0
        ⟨['a', 'b', 'c', 'd', 'e', 'f', 'g', 'h', 'i'], 1, false,
          TruncatePolicy.«end»⟩).length = 2 - 0 :=
  (packSpec_truncation_sound 2 0
      ⟨['a', 'b', 'c', 'd', 'e', 'f', 'g', 'h', 'i'], 1, false, TruncatePolicy.«end»⟩
      (by decide) (by decide)).1

end Fabra
